import Mathlib

/-!
Verification development for the Chicago Events Analyzer (`eventapp.py`).

The core under verification is the scoring pipeline (lines 84-96 of
`eventapp.py`), the budget filter and re-normalization of tab 5
(lines 183-192), and the 0/1 knapsack dynamic program with backtrace
(lines 194-215).

Numeric model: the pandas columns are IEEE double series.  We embed a
float as an exact rational together with the IEEE special values
`inf`, `-inf`, `nan` (`PFloat` below); arithmetic on finite operands
is exact rational arithmetic (the claims never depend on rounding of
finite results, only on the special-value behaviour of division by
zero and of comparisons), and operations involving special values
follow IEEE-754 as Python/numpy implement them.
-/

/-- Model of an IEEE double: an exact rational or a special value. -/
inductive PFloat where
  | finite (q : ℚ)
  | inf
  | negInf
  | nan
deriving DecidableEq, Repr

namespace PFloat

/-- IEEE `<` as Python evaluates it: any comparison with NaN is `False`. -/
def pyLt : PFloat → PFloat → Bool
  | .nan, _ => false
  | _, .nan => false
  | .negInf, .negInf => false
  | .negInf, _ => true
  | _, .negInf => false
  | .inf, _ => false
  | .finite _, .inf => true
  | .finite a, .finite b => decide (a < b)

/-- Python's builtin `max(a, b)`: returns `b` exactly when `b > a`
(so a NaN second argument is never picked). -/
def pyMax (a b : PFloat) : PFloat := if pyLt a b then b else a

/-- Python's `!=` on floats: NaN compares unequal to everything,
including itself. -/
def pyNe : PFloat → PFloat → Bool
  | .nan, _ => true
  | _, .nan => true
  | x, y => decide (x ≠ y)

/-- IEEE addition. -/
def pAdd : PFloat → PFloat → PFloat
  | .nan, _ => .nan
  | _, .nan => .nan
  | .inf, .negInf => .nan
  | .negInf, .inf => .nan
  | .inf, _ => .inf
  | _, .inf => .inf
  | .negInf, _ => .negInf
  | _, .negInf => .negInf
  | .finite a, .finite b => .finite (a + b)

/-- IEEE negation. -/
def pNeg : PFloat → PFloat
  | .finite q => .finite (-q)
  | .inf => .negInf
  | .negInf => .inf
  | .nan => .nan

/-- IEEE subtraction, `a - b = a + (-b)`. -/
def pSub (a b : PFloat) : PFloat := pAdd a (pNeg b)

/-- IEEE multiplication. -/
def pMul : PFloat → PFloat → PFloat
  | .nan, _ => .nan
  | _, .nan => .nan
  | .finite a, .finite b => .finite (a * b)
  | .finite a, .inf => if 0 < a then .inf else if a < 0 then .negInf else .nan
  | .finite a, .negInf => if 0 < a then .negInf else if a < 0 then .inf else .nan
  | .inf, .finite b => if 0 < b then .inf else if b < 0 then .negInf else .nan
  | .negInf, .finite b => if 0 < b then .negInf else if b < 0 then .inf else .nan
  | .inf, .inf => .inf
  | .negInf, .negInf => .inf
  | .inf, .negInf => .negInf
  | .negInf, .inf => .negInf

/-- IEEE division (zeros are the positive zero of the exact model):
`0/0 = NaN`, `x/0 = ±inf`, `x/±inf = 0`, `±inf/±inf = NaN`. -/
def pDiv : PFloat → PFloat → PFloat
  | .nan, _ => .nan
  | _, .nan => .nan
  | .finite a, .finite b =>
      if b = 0 then (if a = 0 then .nan else if 0 < a then .inf else .negInf)
      else .finite (a / b)
  | .finite _, .inf => .finite 0
  | .finite _, .negInf => .finite 0
  | .inf, .finite b => if b < 0 then .negInf else .inf
  | .negInf, .finite b => if b < 0 then .inf else .negInf
  | .inf, .inf => .nan
  | .inf, .negInf => .nan
  | .negInf, .inf => .nan
  | .negInf, .negInf => .nan

/-- Round-half-to-even on an exact rational (numpy's rounding mode). -/
def roundHalfEven (x : ℚ) : ℤ :=
  let f := ⌊x⌋
  let r := x - (f : ℚ)
  if r < 1/2 then f
  else if 1/2 < r then f + 1
  else if Even f then f else f + 1

/-- `Series.round(2)`: round a finite value to two decimal places;
special values are unchanged. -/
def round2 : PFloat → PFloat
  | .finite q => .finite ((roundHalfEven (q * 100) : ℚ) / 100)
  | .inf => .inf
  | .negInf => .negInf
  | .nan => .nan

end PFloat

/-- One row of the input CSV after ingestion/filtering: the fields used
by the engine.  Numeric columns are modelled as exact rationals
(the data model supplies coerced numbers). -/
structure Event where
  event : String
  month : String
  season : String
  category : String
  demographic : String
  freeOrTicketed : String
  location : String
  attendance : ℚ
  publicityScore : ℚ
  prideFactor : ℚ
  mediaCoverageScore : ℚ
  estimatedSponsorshipCost : ℚ
deriving DecidableEq, Repr

instance : Inhabited Event :=
  ⟨⟨"", "", "", "", "", "", "", 0, 0, 0, 0, 0⟩⟩

/-- The six sidebar weight sliders (lines 74-79). -/
structure Weights where
  attendance : ℚ
  publicity : ℚ
  pride : ℚ
  media : ℚ
  cost : ℚ
  demo : ℚ
deriving DecidableEq, Repr

/-- `Series.max()` of a numeric (NaN-free) column: the maximum of a
nonempty list, NaN on an empty series (pandas' reduction on no rows). -/
def seriesMaxQ : List ℚ → PFloat
  | [] => .nan
  | x :: xs => .finite (xs.foldl max x)

/-- `Series.max()` of a float column with pandas' default `skipna=True`:
NaN entries are ignored; all-NaN (or empty) reduces to NaN. -/
def seriesMaxP (l : List PFloat) : PFloat :=
  match l.filter (fun x => x ≠ PFloat.nan) with
  | [] => .nan
  | x :: xs => xs.foldl PFloat.pyMax x

/-- Line 67: `AdjustedCost = Estimated_Sponsorship_Cost * cost_adjustment`. -/
def adjustedCost (mult : ℚ) (e : Event) : ℚ :=
  e.estimatedSponsorshipCost * mult

/-- Line 84: `NormAttendance = Attendance / Attendance.max()`. -/
def normAttendance (events : List Event) (e : Event) : PFloat :=
  PFloat.pDiv (.finite e.attendance) (seriesMaxQ (events.map (·.attendance)))

/-- Line 85: `NormCost = AdjustedCost / AdjustedCost.max()`. -/
def normCost (events : List Event) (mult : ℚ) (e : Event) : PFloat :=
  PFloat.pDiv (.finite (adjustedCost mult e))
    (seriesMaxQ (events.map (adjustedCost mult)))

/-- Lines 86-87: the fixed demographic lookup with `fillna(0.6)`. -/
def demoScore (d : String) : ℚ :=
  if d = "Families" then 1
  else if d = "Young Adults" then 9/10
  else if d = "Sports Fans" then 8/10
  else if d = "Cultural Communities" then 7/10
  else if d = "General Public" then 8/10
  else 6/10

/-- Lines 88-95: the weighted composite fit score (no clamping). -/
def dynamicFitScore (events : List Event) (w : Weights) (mult : ℚ) (e : Event) :
    PFloat :=
  PFloat.pSub
    (PFloat.pAdd
      (PFloat.pAdd
        (PFloat.pAdd
          (PFloat.pAdd
            (PFloat.pMul (.finite w.attendance) (normAttendance events e))
            (PFloat.pMul (.finite w.publicity) (.finite (e.publicityScore / 10))))
          (PFloat.pMul (.finite w.pride) (.finite (e.prideFactor / 10))))
        (PFloat.pMul (.finite w.media) (.finite (e.mediaCoverageScore / 10))))
      (PFloat.pMul (.finite w.demo) (.finite (demoScore e.demographic))))
    (PFloat.pMul (.finite w.cost) (normCost events mult e))

/-- Line 96: `ROI = (Attendance * Publicity_Score * Media_Coverage_Score)
/ AdjustedCost`, rounded to two decimals.  Row-wise: no set dependence. -/
def roi (mult : ℚ) (e : Event) : PFloat :=
  PFloat.round2
    (PFloat.pDiv
      (.finite (e.attendance * e.publicityScore * e.mediaCoverageScore))
      (.finite (adjustedCost mult e)))

/-- Line 190: `NormFitScore = DynamicFitScore / DynamicFitScore.max()`.
The `DynamicFitScore` column was computed on the full filtered set
(lines 88-95); only the maximum is taken over the budget-eligible rows. -/
def normFitScore (filtered budgetDf : List Event) (w : Weights) (mult : ℚ)
    (e : Event) : PFloat :=
  PFloat.pDiv (dynamicFitScore filtered w mult e)
    (seriesMaxP (budgetDf.map (dynamicFitScore filtered w mult)))

/-- Line 191: `NormROI = ROI / ROI.max()` over the budget-eligible rows. -/
def normROI (budgetDf : List Event) (mult : ℚ) (e : Event) : PFloat :=
  PFloat.pDiv (roi mult e) (seriesMaxP (budgetDf.map (roi mult)))

/-- Line 192: `CombinedScore = (NormFitScore + NormROI) / 2`. -/
def combinedScore (filtered budgetDf : List Event) (w : Weights) (mult : ℚ)
    (e : Event) : PFloat :=
  PFloat.pDiv
    (PFloat.pAdd (normFitScore filtered budgetDf w mult e)
      (normROI budgetDf mult e))
    (.finite 2)

/-- One row of the scored table (the derived columns of lines 84-96). -/
structure ScoredRow where
  normAttendance : PFloat
  normCost : PFloat
  demoScore : ℚ
  dynamicFitScore : PFloat
  roi : PFloat
  adjustedCost : ℚ
deriving DecidableEq, Repr

/-- The scored output sequence: every derived column of lines 84-96,
computed for each event of the filtered set. -/
def scoreTable (filtered : List Event) (w : Weights) (mult : ℚ) :
    List ScoredRow :=
  filtered.map (fun e =>
    { normAttendance := normAttendance filtered e
      normCost := normCost filtered mult e
      demoScore := demoScore e.demographic
      dynamicFitScore := dynamicFitScore filtered w mult e
      roi := roi mult e
      adjustedCost := adjustedCost mult e })

/-!
The optimizer (tab 5, lines 194-215).

`dpF`/`backtrackF` are the direct translation with float (`PFloat`)
values, exactly as `tab5` runs them: `dpF costs values i w` is the cell
`dp[i][w]` of the table filled at lines 201-207 (`max` is Python's
builtin, `pyMax`), and `backtrackF costs values i w` is the list
`selected_indices` produced by the loop at lines 209-215 when it is
entered at item index `i` with remaining capacity `w` (the run starts
at `i = n`, `w = W`; indices are appended in decreasing order, and the
test `dp[i][w] != dp[i-1][w]` is Python's float `!=`, `pyNe`).

`dpQ`/`backtrackQ` are the same two loops specialised to real
(finite) values, as the specification's claims about the optimizer
posit; `dpF_map_finite`/`backtrackF_map_finite` below prove that the
float run on finite values agrees with them.

The capacity `w` and the costs are naturals: `W = int(budget)` with the
budget slider bounded below by 0 (line 68) and the costs
`int(e["AdjustedCost"])` with positive sponsorship costs and a positive
multiplier (lines 66-67), so Python's truncation is the floor and never
negative.  In the backtrace, `w -= costs[i-1]` never drives `w` below
zero because the branch test forces `costs[i-1] <= w`
(lemma `backtrackF_costSum_le` below), so natural subtraction is exact
on every reachable path.
-/

/-- Lines 201-207: the knapsack DP table over float values. -/
def dpF (costs : List ℕ) (values : List PFloat) : ℕ → ℕ → PFloat
  | 0, _ => .finite 0
  | i + 1, w =>
      if costs.getD i 0 ≤ w then
        PFloat.pyMax (dpF costs values i w)
          (PFloat.pAdd (dpF costs values i (w - costs.getD i 0))
            (values.getD i (.finite 0)))
      else dpF costs values i w

/-- Lines 209-215: the backtrace over float values. -/
def backtrackF (costs : List ℕ) (values : List PFloat) : ℕ → ℕ → List ℕ
  | 0, _ => []
  | i + 1, w =>
      if PFloat.pyNe (dpF costs values (i + 1) w) (dpF costs values i w) then
        i :: backtrackF costs values i (w - costs.getD i 0)
      else backtrackF costs values i w

/-- Lines 201-207 with real (finite) per-event values: the cell
`dp[i][w]` of the knapsack table. -/
def dpQ (costs : List ℕ) (values : List ℚ) : ℕ → ℕ → ℚ
  | 0, _ => 0
  | i + 1, w =>
      if costs.getD i 0 ≤ w then
        max (dpQ costs values i w)
          (dpQ costs values i (w - costs.getD i 0) + values.getD i 0)
      else dpQ costs values i w

/-- Lines 209-215 with real (finite) per-event values. -/
def backtrackQ (costs : List ℕ) (values : List ℚ) : ℕ → ℕ → List ℕ
  | 0, _ => []
  | i + 1, w =>
      if dpQ costs values (i + 1) w ≠ dpQ costs values i w then
        i :: backtrackQ costs values i (w - costs.getD i 0)
      else backtrackQ costs values i w

/-- Total integer cost of a list of selected item indices. -/
def costSum (costs : List ℕ) (sel : List ℕ) : ℕ :=
  (sel.map (fun i => costs.getD i 0)).sum

/-- Total value of a list of selected item indices. -/
def valSum (values : List ℚ) (sel : List ℕ) : ℚ :=
  (sel.map (fun i => values.getD i 0)).sum

/-- Total cost of a subset of (cost, value) items. -/
def subsetCost (s : List (ℕ × ℚ)) : ℕ := (s.map Prod.fst).sum

/-- Total value of a subset of (cost, value) items. -/
def subsetValue (s : List (ℕ × ℚ)) : ℚ := (s.map Prod.snd).sum

/-- Specification-side brute force: the maximum total value over all
subsets (sublists) of the items whose total cost is at most `W`
(the empty subset, of value 0, is always feasible). -/
def bruteForceMax (items : List (ℕ × ℚ)) (W : ℕ) : ℚ :=
  ((items.sublists.filter (fun s => subsetCost s ≤ W)).map subsetValue).foldr
    max 0

/-- `int(q)` for the nonnegative quantities fed to the optimizer
(truncation toward zero = floor on nonnegative values). -/
def pyInt (q : ℚ) : ℕ := q.floor.toNat

/-- Outcome of the Recommended Events tab (lines 181-219): the guard of
line 183 (`"No events available with current filters."`), the guard of
lines 187-188 (`"No events fit within the total budget."`), or the
recommended selection of line 217. -/
inductive Tab5Result where
  | noEventsAvailable
  | noEventsFitBudget
  | recommended (sel : List Event)
deriving DecidableEq, Repr

/-- Lines 183-217: the whole Recommended Events computation.  The
descending-`CombinedScore` display sort of line 218 is presentational
(it feeds `st.dataframe`/CSV rendering) and is elided; the selection
itself is the line-217 list `recommended_events`, in backtrace order. -/
def tab5 (filtered : List Event) (w : Weights) (mult : ℚ) (budget : ℚ) :
    Tab5Result :=
  if filtered.isEmpty then .noEventsAvailable
  else
    let budgetDf := filtered.filter (fun e => adjustedCost mult e ≤ budget)
    if budgetDf.isEmpty then .noEventsFitBudget
    else
      let values := budgetDf.map (combinedScore filtered budgetDf w mult)
      let costs := budgetDf.map (fun e => pyInt (adjustedCost mult e))
      let sel := backtrackF costs values budgetDf.length (pyInt budget)
      .recommended (sel.filterMap (fun i => budgetDf.get? i))

/-- The knapsack recurrence phrased on an explicit item list whose head
is the item scanned last; used to relate the table of lines 201-207 to
the brute-force enumeration of subsets. -/
def dpItems : List (ℕ × ℚ) → ℕ → ℚ
  | [], _ => 0
  | (c, v) :: rest, w =>
      if c ≤ w then max (dpItems rest w) (dpItems rest (w - c) + v)
      else dpItems rest w

/-- The items of the first `i` (cost, value) pairs, last item first:
the list the recurrence `dpQ _ _ i` effectively scans. -/
def revZip (costs : List ℕ) (values : List ℚ) : ℕ → List (ℕ × ℚ)
  | 0 => []
  | i + 1 => (costs.getD i 0, values.getD i 0) :: revZip costs values i

/-- The default slider weights of lines 74-79. -/
def sampleWeights : Weights := ⟨3/10, 2/10, 2/10, 2/10, 1/10, 1/10⟩

/-- A sample affordable event (used to instantiate theorems). -/
def sampleEventA : Event :=
  ⟨"A", "June", "Summer", "Festival", "Families", "Free", "Loop",
    10, 5, 5, 5, 5⟩

/-- A sample more expensive event. -/
def sampleEventB : Event :=
  ⟨"B", "July", "Summer", "Festival", "Young Adults", "Free", "Loop",
    50, 4, 4, 4, 100⟩

/-- An event with zero attendance and zero sponsorship cost: its
attendance column has maximum 0. -/
def zeroAttendanceEvent : Event :=
  ⟨"Z", "June", "Summer", "Festival", "Families", "Free", "Loop",
    0, 5, 5, 5, 5⟩

/-- An event with positive attendance but zero sponsorship cost: its
adjusted cost is 0 while the ROI numerator is positive. -/
def zeroCostEvent : Event :=
  ⟨"C", "June", "Summer", "Festival", "Families", "Free", "Loop",
    100, 5, 5, 5, 0⟩

/-! ### Basic facts about the float model -/

namespace PFloat

lemma pyLt_nan_right (a : PFloat) : pyLt a .nan = false := by
  cases a <;> rfl

lemma pyNe_self {x : PFloat} (hx : x ≠ .nan) : pyNe x x = false := by
  cases x <;> simp [pyNe] at hx ⊢

lemma pyMax_ne_nan {a : PFloat} (b : PFloat) (ha : a ≠ .nan) :
    pyMax a b ≠ .nan := by
  unfold pyMax
  by_cases h : pyLt a b = true
  · rw [if_pos h]
    intro hb
    rw [hb, pyLt_nan_right] at h
    exact Bool.false_ne_true h
  · rw [if_neg h]
    exact ha

lemma pyMax_finite (a b : ℚ) :
    pyMax (.finite a) (.finite b) = .finite (max a b) := by
  unfold pyMax pyLt
  by_cases h : a < b
  · simp [h, max_eq_right h.le]
  · simp [h, max_eq_left (not_lt.mp h)]

lemma pAdd_finite (a b : ℚ) : pAdd (.finite a) (.finite b) = .finite (a + b) :=
  rfl

lemma pAdd_nan_right (x : PFloat) : pAdd x .nan = .nan := by
  cases x <;> rfl

lemma pAdd_nan_left (x : PFloat) : pAdd .nan x = .nan := by
  cases x <;> rfl

lemma pDiv_nan_left (x : PFloat) : pDiv .nan x = .nan := by
  cases x <;> rfl

lemma pyNe_finite (a b : ℚ) :
    pyNe (.finite a) (.finite b) = decide (a ≠ b) := by
  by_cases h : a = b <;> simp [pyNe, h]

lemma pyMax_inf_right (a : PFloat) (ha : a ≠ .nan) : pyMax a .inf = .inf := by
  cases a <;> simp [pyMax, pyLt] at ha ⊢

lemma pyMax_inf_left (b : PFloat) : pyMax .inf b = .inf := by
  cases b <;> rfl

@[simp] lemma pMul_nan_right (x : PFloat) : pMul x .nan = .nan := by
  cases x <;> rfl

@[simp] lemma pMul_nan_left (x : PFloat) : pMul .nan x = .nan := by
  cases x <;> rfl

@[simp] lemma pAdd_nan_right' (x : PFloat) : pAdd x .nan = .nan :=
  pAdd_nan_right x

@[simp] lemma pAdd_nan_left' (x : PFloat) : pAdd .nan x = .nan :=
  pAdd_nan_left x

@[simp] lemma pSub_nan_left (x : PFloat) : pSub .nan x = .nan := by
  cases x <;> rfl

@[simp] lemma pSub_nan_right (x : PFloat) : pSub x .nan = .nan := by
  cases x <;> rfl

@[simp] lemma pDiv_nan_left' (x : PFloat) : pDiv .nan x = .nan :=
  pDiv_nan_left x

@[simp] lemma pDiv_nan_right (x : PFloat) : pDiv x .nan = .nan := by
  cases x <;> rfl

@[simp] lemma round2_nan : round2 .nan = .nan := rfl

@[simp] lemma round2_inf : round2 .inf = .inf := rfl

lemma pMul_finite (a b : ℚ) : pMul (.finite a) (.finite b) = .finite (a * b) :=
  rfl

lemma pSub_finite (a b : ℚ) : pSub (.finite a) (.finite b) = .finite (a - b) := by
  rw [pSub, pNeg, pAdd_finite]
  rw [sub_eq_add_neg]

end PFloat

/-! ### The float DP never holds NaN; its backtrace respects the budget -/

lemma dpF_ne_nan (costs : List ℕ) (values : List PFloat) :
    ∀ i w, dpF costs values i w ≠ .nan := by
  intro i
  induction i with
  | zero => intro w; simp [dpF]
  | succ i ih =>
      intro w
      rw [dpF]
      by_cases h : costs.getD i 0 ≤ w
      · rw [if_pos h]
        exact PFloat.pyMax_ne_nan _ (ih w)
      · rw [if_neg h]
        exact ih w

/-- If the backtrace test at item `i` fires, the item fits the current
remaining capacity and its cost is subtracted without truncation. -/
lemma backtrackF_select_cost_le {costs : List ℕ} {values : List PFloat}
    {i w : ℕ}
    (h : PFloat.pyNe (dpF costs values (i + 1) w) (dpF costs values i w) =
      true) :
    costs.getD i 0 ≤ w := by
  by_contra hc
  have heq : dpF costs values (i + 1) w = dpF costs values i w := by
    rw [dpF, if_neg hc]
  rw [heq, PFloat.pyNe_self (dpF_ne_nan costs values i w)] at h
  exact Bool.false_ne_true h

lemma backtrackF_lt (costs : List ℕ) (values : List PFloat) :
    ∀ i w j, j ∈ backtrackF costs values i w → j < i := by
  intro i
  induction i with
  | zero => intro w j hj; simp [backtrackF] at hj
  | succ i ih =>
      intro w j hj
      rw [backtrackF] at hj
      by_cases h : PFloat.pyNe (dpF costs values (i + 1) w)
          (dpF costs values i w) = true
      · rw [if_pos h] at hj
        rcases List.mem_cons.mp hj with rfl | hj
        · exact Nat.lt_succ_self j
        · exact Nat.lt_succ_of_lt (ih _ j hj)
      · rw [if_neg h] at hj
        exact Nat.lt_succ_of_lt (ih _ j hj)

/-- The backtrace never spends more than the remaining capacity. -/
lemma backtrackF_costSum_le (costs : List ℕ) (values : List PFloat) :
    ∀ i w, costSum costs (backtrackF costs values i w) ≤ w := by
  intro i
  induction i with
  | zero => intro w; simp [backtrackF, costSum]
  | succ i ih =>
      intro w
      rw [backtrackF]
      by_cases h : PFloat.pyNe (dpF costs values (i + 1) w)
          (dpF costs values i w) = true
      · rw [if_pos h]
        have hc := backtrackF_select_cost_le h
        have := ih (w - costs.getD i 0)
        calc costSum costs (i :: backtrackF costs values i (w - costs.getD i 0))
            = costs.getD i 0 +
              costSum costs (backtrackF costs values i (w - costs.getD i 0)) :=
              by simp [costSum]
          _ ≤ costs.getD i 0 + (w - costs.getD i 0) := by omega
          _ = w := by omega
      · rw [if_neg h]
        exact ih w

/-! ### Structure of the rational DP table -/

/-- Adding a row never decreases a cell: `dp[i+1][w] >= dp[i][w]`. -/
lemma dpQ_le_succ (costs : List ℕ) (values : List ℚ) (i w : ℕ) :
    dpQ costs values i w ≤ dpQ costs values (i + 1) w := by
  rw [dpQ]
  by_cases h : costs.getD i 0 ≤ w
  · rw [if_pos h]
    exact le_max_left _ _
  · rw [if_neg h]

/-- Every cell of the table is nonnegative. -/
lemma dpQ_nonneg (costs : List ℕ) (values : List ℚ) :
    ∀ i w, 0 ≤ dpQ costs values i w := by
  intro i
  induction i with
  | zero => intro w; rw [dpQ]
  | succ i ih => intro w; exact le_trans (ih w) (dpQ_le_succ costs values i w)

/-- Cells are monotone in the capacity. -/
lemma dpQ_mono_w (costs : List ℕ) (values : List ℚ) :
    ∀ i {w w' : ℕ}, w ≤ w' → dpQ costs values i w ≤ dpQ costs values i w' := by
  intro i
  induction i with
  | zero => intro w w' _; rw [dpQ, dpQ]
  | succ i ih =>
      intro w w' hww
      rw [dpQ, dpQ]
      by_cases h : costs.getD i 0 ≤ w
      · rw [if_pos h, if_pos (le_trans h hww)]
        exact max_le_max (ih hww)
          (add_le_add_right (ih (Nat.sub_le_sub_right hww _)) _)
      · rw [if_neg h]
        by_cases h' : costs.getD i 0 ≤ w'
        · rw [if_pos h']
          exact le_trans (ih hww) (le_max_left _ _)
        · rw [if_neg h']
          exact ih hww

/-- A row whose item has negative value copies the previous row: the DP
never profits from a negative-valued item. -/
lemma dpQ_neg_value (costs : List ℕ) (values : List ℚ) (i w : ℕ)
    (hv : values.getD i 0 < 0) :
    dpQ costs values (i + 1) w = dpQ costs values i w := by
  rw [dpQ]
  by_cases h : costs.getD i 0 ≤ w
  · rw [if_pos h]
    refine max_eq_left (le_of_lt ?_)
    calc dpQ costs values i (w - costs.getD i 0) + values.getD i 0
        < dpQ costs values i (w - costs.getD i 0) := by linarith
      _ ≤ dpQ costs values i w := dpQ_mono_w costs values i (Nat.sub_le _ _)
  · rw [if_neg h]

/-- If the backtrace test at item `i` fires, the item fits and the cell
decomposes as "take the item". -/
lemma dpQ_select {costs : List ℕ} {values : List ℚ} {i w : ℕ}
    (h : dpQ costs values (i + 1) w ≠ dpQ costs values i w) :
    costs.getD i 0 ≤ w ∧
      dpQ costs values (i + 1) w =
        dpQ costs values i (w - costs.getD i 0) + values.getD i 0 := by
  by_cases hc : costs.getD i 0 ≤ w
  · refine ⟨hc, ?_⟩
    rw [dpQ, if_pos hc] at h ⊢
    rcases max_choice (dpQ costs values i w)
        (dpQ costs values i (w - costs.getD i 0) + values.getD i 0) with
      heq | heq
    · exact absurd heq h
    · exact heq
  · exact absurd (by rw [dpQ, if_neg hc]) h

lemma backtrackQ_lt (costs : List ℕ) (values : List ℚ) :
    ∀ i w j, j ∈ backtrackQ costs values i w → j < i := by
  intro i
  induction i with
  | zero => intro w j hj; simp [backtrackQ] at hj
  | succ i ih =>
      intro w j hj
      rw [backtrackQ] at hj
      by_cases h : dpQ costs values (i + 1) w ≠ dpQ costs values i w
      · rw [if_pos h] at hj
        rcases List.mem_cons.mp hj with rfl | hj
        · exact Nat.lt_succ_self j
        · exact Nat.lt_succ_of_lt (ih _ j hj)
      · rw [if_neg h] at hj
        exact Nat.lt_succ_of_lt (ih _ j hj)

/-- The backtrace reconstructs exactly the value of its starting cell,
spending at most the starting capacity. -/
lemma backtrackQ_correct (costs : List ℕ) (values : List ℚ) :
    ∀ i w,
      valSum values (backtrackQ costs values i w) = dpQ costs values i w ∧
      costSum costs (backtrackQ costs values i w) ≤ w := by
  intro i
  induction i with
  | zero => intro w; refine ⟨?_, ?_⟩ <;> simp [backtrackQ, valSum, costSum, dpQ]
  | succ i ih =>
      intro w
      rw [backtrackQ]
      by_cases h : dpQ costs values (i + 1) w ≠ dpQ costs values i w
      · rw [if_pos h]
        obtain ⟨hc, hcell⟩ := dpQ_select h
        obtain ⟨ihv, ihc⟩ := ih (w - costs.getD i 0)
        have hv : valSum values
            (i :: backtrackQ costs values i (w - costs.getD i 0)) =
            values.getD i 0 +
              valSum values (backtrackQ costs values i (w - costs.getD i 0)) := by
          simp [valSum]
        have hcs : costSum costs
            (i :: backtrackQ costs values i (w - costs.getD i 0)) =
            costs.getD i 0 +
              costSum costs (backtrackQ costs values i (w - costs.getD i 0)) := by
          simp [costSum]
        constructor
        · rw [hv, ihv, hcell]
          ring
        · rw [hcs]
          omega
      · rw [if_neg h]
        obtain ⟨ihv, ihc⟩ := ih w
        push_neg at h
        exact ⟨by rw [ihv, h], ihc⟩

/-- The backtrace never selects an item of negative value. -/
lemma backtrackQ_value_nonneg (costs : List ℕ) (values : List ℚ) :
    ∀ i w j, j ∈ backtrackQ costs values i w → 0 ≤ values.getD j 0 := by
  intro i
  induction i with
  | zero => intro w j hj; simp [backtrackQ] at hj
  | succ i ih =>
      intro w j hj
      rw [backtrackQ] at hj
      by_cases h : dpQ costs values (i + 1) w ≠ dpQ costs values i w
      · rw [if_pos h] at hj
        rcases List.mem_cons.mp hj with rfl | hj
        · by_contra hneg
          push_neg at hneg
          exact h (dpQ_neg_value costs values j w hneg)
        · exact ih _ j hj
      · rw [if_neg h] at hj
        exact ih _ j hj

/-! ### The DP value is the brute-force maximum over feasible subsets -/

lemma dpItems_nonneg : ∀ (l : List (ℕ × ℚ)) (w : ℕ), 0 ≤ dpItems l w := by
  intro l
  induction l with
  | nil => intro w; rw [dpItems]
  | cons cv rest ih =>
      intro w
      obtain ⟨c, v⟩ := cv
      rw [dpItems]
      by_cases h : c ≤ w
      · rw [if_pos h]
        exact le_trans (ih w) (le_max_left _ _)
      · rw [if_neg h]
        exact ih w

/-- Every budget-feasible subset is worth at most the DP value. -/
lemma dpItems_ub :
    ∀ (l s : List (ℕ × ℚ)) (w : ℕ), List.Sublist s l → subsetCost s ≤ w →
      subsetValue s ≤ dpItems l w := by
  intro l
  induction l with
  | nil =>
      intro s w hs _
      rw [List.sublist_nil.mp hs]
      rw [dpItems]
      simp [subsetValue]
  | cons cv rest ih =>
      intro s w hs hcost
      obtain ⟨c, v⟩ := cv
      cases hs with
      | cons _ hs' =>
          rw [dpItems]
          by_cases h : c ≤ w
          · rw [if_pos h]
            exact le_trans (ih _ w hs' hcost) (le_max_left _ _)
          · rw [if_neg h]
            exact ih _ w hs' hcost
      | cons₂ =>
          rename_i t hs'
          have hct : c + subsetCost t ≤ w := by simpa [subsetCost] using hcost
          have hc : c ≤ w := le_trans (Nat.le_add_right _ _) hct
          have ht : subsetCost t ≤ w - c := by omega
          have hv : subsetValue ((c, v) :: t) = v + subsetValue t := by
            simp [subsetValue]
          rw [dpItems, if_pos hc, hv]
          have := ih t (w - c) hs' ht
          have hle : v + subsetValue t ≤ dpItems rest (w - c) + v := by
            linarith
          exact le_trans hle (le_max_right _ _)

/-- The DP value is achieved by some budget-feasible subset. -/
lemma dpItems_achieved :
    ∀ (l : List (ℕ × ℚ)) (w : ℕ), ∃ s, List.Sublist s l ∧
      subsetCost s ≤ w ∧ subsetValue s = dpItems l w := by
  intro l
  induction l with
  | nil =>
      intro w
      exact ⟨[], List.nil_sublist _, by simp [subsetCost], by
        rw [dpItems]; simp [subsetValue]⟩
  | cons cv rest ih =>
      intro w
      obtain ⟨c, v⟩ := cv
      by_cases h : c ≤ w
      · rcases max_choice (dpItems rest w) (dpItems rest (w - c) + v) with
          hmax | hmax
        · obtain ⟨s, hs, hsc, hsv⟩ := ih w
          exact ⟨s, hs.cons _, hsc, by rw [dpItems, if_pos h, hmax, hsv]⟩
        · obtain ⟨s, hs, hsc, hsv⟩ := ih (w - c)
          refine ⟨(c, v) :: s, hs.cons₂ _, ?_, ?_⟩
          · have : subsetCost ((c, v) :: s) = c + subsetCost s := by
              simp [subsetCost]
            omega
          · have hval : subsetValue ((c, v) :: s) = v + subsetValue s := by
              simp [subsetValue]
            rw [dpItems, if_pos h, hmax, hval, hsv]
            ring
      · obtain ⟨s, hs, hsc, hsv⟩ := ih w
        exact ⟨s, hs.cons _, hsc, by rw [dpItems, if_neg h, hsv]⟩

lemma foldr_max_le {L : List ℚ} {B : ℚ} (h0 : 0 ≤ B)
    (h : ∀ x ∈ L, x ≤ B) : L.foldr max 0 ≤ B := by
  induction L with
  | nil => simpa using h0
  | cons a L ih =>
      rw [List.foldr_cons]
      exact max_le (h a (List.mem_cons_self a L))
        (ih (fun x hx => h x (List.mem_cons_of_mem a hx)))

lemma le_foldr_max {L : List ℚ} {x : ℚ} (hx : x ∈ L) : x ≤ L.foldr max 0 := by
  induction L with
  | nil => simp at hx
  | cons a L ih =>
      rw [List.foldr_cons]
      rcases List.mem_cons.mp hx with rfl | hx
      · exact le_max_left _ _
      · exact le_trans (ih hx) (le_max_right _ _)

/-- The brute-force enumeration of feasible subsets computes exactly
the knapsack recurrence's value. -/
lemma bruteForceMax_eq_dpItems (l : List (ℕ × ℚ)) (w : ℕ) :
    bruteForceMax l w = dpItems l w := by
  apply le_antisymm
  · apply foldr_max_le (dpItems_nonneg l w)
    intro x hx
    obtain ⟨s, hsmem, rfl⟩ := List.mem_map.mp hx
    have hfeas := List.mem_filter.mp hsmem
    exact dpItems_ub l s w (List.mem_sublists.mp hfeas.1)
      (by simpa using hfeas.2)
  · obtain ⟨s, hs, hsc, hsv⟩ := dpItems_achieved l w
    rw [← hsv]
    apply le_foldr_max
    exact List.mem_map.mpr ⟨s, List.mem_filter.mpr
      ⟨List.mem_sublists.mpr hs, by simpa using hsc⟩, rfl⟩

/-- Reversing the item list does not change the knapsack optimum. -/
lemma dpItems_reverse (l : List (ℕ × ℚ)) (w : ℕ) :
    dpItems l.reverse w = dpItems l w := by
  have key : ∀ (a b : List (ℕ × ℚ)),
      (∀ s, List.Sublist s a → List.Sublist s.reverse b) →
      dpItems a w ≤ dpItems b w := by
    intro a b htr
    obtain ⟨s, hs, hsc, hsv⟩ := dpItems_achieved a w
    rw [← hsv]
    have hcost : subsetCost s.reverse = subsetCost s := by
      simp [subsetCost, List.sum_reverse]
    have hval : subsetValue s.reverse = subsetValue s := by
      simp [subsetValue, List.sum_reverse]
    rw [← hval]
    exact dpItems_ub b s.reverse w (htr s hs) (by rw [hcost]; exact hsc)
  apply le_antisymm
  · apply key
    intro s hs
    simpa using hs.reverse
  · apply key
    intro s hs
    exact hs.reverse

lemma dpQ_eq_dpItems_revZip (costs : List ℕ) (values : List ℚ) :
    ∀ i w, dpQ costs values i w = dpItems (revZip costs values i) w := by
  intro i
  induction i with
  | zero => intro w; rw [dpQ, revZip, dpItems]
  | succ i ih =>
      intro w
      rw [dpQ, revZip, dpItems]
      by_cases h : costs.getD i 0 ≤ w
      · rw [if_pos h, if_pos h, ih, ih]
      · rw [if_neg h, if_neg h, ih]

lemma revZip_eq_reverse_take (costs : List ℕ) (values : List ℚ) :
    ∀ i, i ≤ costs.length → i ≤ values.length →
      revZip costs values i = ((costs.zip values).take i).reverse := by
  intro i
  induction i with
  | zero => intro _ _; rw [revZip]; simp
  | succ i ih =>
      intro h1 h2
      have hi1 : i < costs.length := h1
      have hi2 : i < values.length := h2
      have hiz : i < (costs.zip values).length := by
        rw [List.length_zip]; omega
      have htake : (costs.zip values).take (i + 1) =
          (costs.zip values).take i ++ [(costs.getD i 0, values.getD i 0)] := by
        rw [List.take_succ, List.getElem?_eq_getElem hiz]
        congr 1
        rw [List.getElem_zip, List.getD_eq_getElem _ _ hi1,
          List.getD_eq_getElem _ _ hi2]
        rfl
      rw [revZip, htake, List.reverse_append, ih (le_of_lt hi1) (le_of_lt hi2)]
      rfl

/-- The full table value `dp[n][w]` is the brute-force maximum over all
budget-feasible subsets of the `n` items. -/
lemma dpQ_eq_bruteForceMax (costs : List ℕ) (values : List ℚ)
    (h : costs.length = values.length) (w : ℕ) :
    dpQ costs values costs.length w = bruteForceMax (costs.zip values) w := by
  rw [dpQ_eq_dpItems_revZip, revZip_eq_reverse_take costs values costs.length
    le_rfl (le_of_eq h), bruteForceMax_eq_dpItems]
  rw [List.take_of_length_le (by rw [List.length_zip]; omega)]
  exact dpItems_reverse _ _

/-! ### The float DP agrees with the rational DP on finite values -/

lemma getD_map_finite (vs : List ℚ) (i : ℕ) :
    (vs.map PFloat.finite).getD i (.finite 0) = .finite (vs.getD i 0) := by
  rcases lt_or_ge i vs.length with h | h
  · rw [List.getD_eq_getElem _ _ (by simpa using h),
      List.getD_eq_getElem _ _ h, List.getElem_map]
  · rw [List.getD_eq_getElem?_getD, List.getD_eq_getElem?_getD,
      List.getElem?_eq_none (by simpa using h),
      List.getElem?_eq_none h]
    rfl

/-- On finite (real) values the float table is the rational table. -/
lemma dpF_map_finite (costs : List ℕ) (values : List ℚ) :
    ∀ i w, dpF costs (values.map .finite) i w = .finite (dpQ costs values i w) := by
  intro i
  induction i with
  | zero => intro w; rw [dpF, dpQ]
  | succ i ih =>
      intro w
      rw [dpF, dpQ]
      by_cases h : costs.getD i 0 ≤ w
      · rw [if_pos h, if_pos h, ih, ih, getD_map_finite,
          PFloat.pAdd_finite, PFloat.pyMax_finite]
      · rw [if_neg h, if_neg h, ih]

/-- On finite (real) values the float backtrace is the rational one. -/
lemma backtrackF_map_finite (costs : List ℕ) (values : List ℚ) :
    ∀ i w, backtrackF costs (values.map .finite) i w =
      backtrackQ costs values i w := by
  intro i
  induction i with
  | zero => intro w; rw [backtrackF, backtrackQ]
  | succ i ih =>
      intro w
      rw [backtrackF, backtrackQ, dpF_map_finite, dpF_map_finite,
        PFloat.pyNe_finite]
      by_cases h : dpQ costs values (i + 1) w = dpQ costs values i w
      · rw [if_neg (by simp [h]), if_neg (by simp [h]), ih]
      · rw [if_pos (by simp [h]), if_pos (by simpa using h), ih]

/-! ### Series maxima -/

lemma init_le_foldl_max : ∀ (xs : List ℚ) (a : ℚ), a ≤ xs.foldl max a := by
  intro xs
  induction xs with
  | nil => intro a; simp
  | cons x xs ih =>
      intro a
      rw [List.foldl_cons]
      exact le_trans (le_max_left a x) (ih (max a x))

lemma mem_le_foldl_max : ∀ (xs : List ℚ) (a y : ℚ), y ∈ xs →
    y ≤ xs.foldl max a := by
  intro xs
  induction xs with
  | nil => intro a y hy; simp at hy
  | cons x xs ih =>
      intro a y hy
      rw [List.foldl_cons]
      rcases List.mem_cons.mp hy with rfl | hy
      · exact le_trans (le_max_right a y) (init_le_foldl_max xs (max a y))
      · exact ih (max a x) y hy

/-- A member of a column is at most the column's (finite) `Series.max()`. -/
lemma mem_le_seriesMaxQ {l : List ℚ} {y m : ℚ} (hy : y ∈ l)
    (hm : seriesMaxQ l = .finite m) : y ≤ m := by
  cases l with
  | nil => simp at hy
  | cons x xs =>
      rw [seriesMaxQ] at hm
      have hfold : xs.foldl max x = m := by
        injection hm
      rcases List.mem_cons.mp hy with rfl | hy
      · rw [← hfold]
        exact init_le_foldl_max xs y
      · rw [← hfold]
        exact mem_le_foldl_max xs x y hy

/-- `Series.max()` of a nonempty constant column is that constant. -/
lemma seriesMaxQ_const {l : List ℚ} {v : ℚ} (hl : l ≠ [])
    (hc : ∀ y ∈ l, y = v) : seriesMaxQ l = .finite v := by
  cases l with
  | nil => exact absurd rfl hl
  | cons x xs =>
      rw [seriesMaxQ]
      have hx : x = v := hc x (List.mem_cons_self x xs)
      have hfold : ∀ (ys : List ℚ), (∀ y ∈ ys, y = v) →
          ys.foldl max v = v := by
        intro ys
        induction ys with
        | nil => intro _; rfl
        | cons z zs ihz =>
            intro hz
            rw [List.foldl_cons, hz z (List.mem_cons_self z zs), max_self]
            exact ihz (fun y hy => hz y (List.mem_cons_of_mem z hy))
      rw [hx, hfold xs (fun y hy => hc y (List.mem_cons_of_mem x hy))]

lemma foldl_pyMax_inf : ∀ (xs : List PFloat) (a : PFloat), a ≠ .nan →
    (a = .inf ∨ .inf ∈ xs) → xs.foldl PFloat.pyMax a = .inf := by
  intro xs
  induction xs with
  | nil =>
      intro a _ ha
      rcases ha with rfl | h
      · rfl
      · simp at h
  | cons x xs ih =>
      intro a hanan ha
      rw [List.foldl_cons]
      have hnn : PFloat.pyMax a x ≠ .nan := PFloat.pyMax_ne_nan x hanan
      rcases ha with rfl | hmem
      · exact ih _ hnn (Or.inl (PFloat.pyMax_inf_left x))
      · rcases List.mem_cons.mp hmem with rfl | hmem
        · exact ih _ hnn (Or.inl (PFloat.pyMax_inf_right a hanan))
        · exact ih _ hnn (Or.inr hmem)

/-- A float column containing `inf` has `Series.max() = inf`. -/
lemma seriesMaxP_inf {l : List PFloat} (h : .inf ∈ l) : seriesMaxP l = .inf := by
  have hmem : PFloat.inf ∈ l.filter (fun x => x ≠ PFloat.nan) :=
    List.mem_filter.mpr ⟨h, by decide⟩
  rw [seriesMaxP]
  cases hf : l.filter (fun x => x ≠ PFloat.nan) with
  | nil => rw [hf] at hmem; simp at hmem
  | cons x xs =>
      rw [hf] at hmem
      have hxnan : x ≠ PFloat.nan := by
        have := List.mem_filter.mp (hf ▸ List.mem_cons_self x xs)
        simpa using this.2
      rcases List.mem_cons.mp hmem with rfl | hmem
      · exact foldl_pyMax_inf xs .inf hxnan (Or.inl rfl)
      · exact foldl_pyMax_inf xs x hxnan (Or.inr hmem)

lemma foldl_pyMax_le : ∀ (xs : List PFloat) (a : PFloat) (q m : ℚ),
    a ≠ .nan → (a = .finite q ∨ .finite q ∈ xs) →
    xs.foldl PFloat.pyMax a = .finite m → q ≤ m := by
  intro xs
  induction xs with
  | nil =>
      intro a q m _ ha hm
      rcases ha with rfl | h
      · rw [List.foldl_nil] at hm
        injection hm with h
        exact le_of_eq h
      · simp at h
  | cons x xs ih =>
      intro a q m hanan ha hm
      rw [List.foldl_cons] at hm
      have hnn : PFloat.pyMax a x ≠ .nan := PFloat.pyMax_ne_nan x hanan
      have hinf : PFloat.pyMax a x ≠ .inf := by
        intro hcontra
        rw [hcontra] at hm
        rw [foldl_pyMax_inf xs .inf (by simp) (Or.inl rfl)] at hm
        exact absurd hm (by simp)
      rcases ha with rfl | hmem
      · unfold PFloat.pyMax at hm hnn hinf
        by_cases hlt : PFloat.pyLt (.finite q) x = true
        · rw [if_pos hlt] at hm hnn hinf
          cases x with
          | finite b =>
              have hqb : q < b := by
                simpa [PFloat.pyLt] using hlt
              exact le_trans (le_of_lt hqb) (ih _ b m hnn (Or.inl rfl) hm)
          | inf => exact absurd rfl hinf
          | negInf => simp [PFloat.pyLt] at hlt
          | nan => simp [PFloat.pyLt] at hlt
        · rw [if_neg hlt] at hm
          exact ih _ q m hanan (Or.inl rfl) hm
      · rcases List.mem_cons.mp hmem with rfl | hmem
        · unfold PFloat.pyMax at hm hnn hinf
          by_cases hlt : PFloat.pyLt a (.finite q) = true
          · rw [if_pos hlt] at hm
            exact ih _ q m (by simp) (Or.inl rfl) hm
          · rw [if_neg hlt] at hm hnn hinf
            cases a with
            | finite b =>
                have hbq : q ≤ b := by
                  have := (Bool.not_eq_true _).mp hlt
                  simpa [PFloat.pyLt] using this
                exact le_trans hbq (ih _ b m hnn (Or.inl rfl) hm)
            | inf => exact absurd rfl hinf
            | negInf => simp [PFloat.pyLt] at hlt
            | nan => exact absurd rfl hanan
        · exact ih _ q m hnn (Or.inr hmem) hm

/-- A finite member of a float column is at most the column's finite
`Series.max()`. -/
lemma mem_le_seriesMaxP {l : List PFloat} {q m : ℚ}
    (hq : .finite q ∈ l) (hm : seriesMaxP l = .finite m) : q ≤ m := by
  have hqf : PFloat.finite q ∈ l.filter (fun x => x ≠ PFloat.nan) :=
    List.mem_filter.mpr ⟨hq, by simp⟩
  rw [seriesMaxP] at hm
  cases hf : l.filter (fun x => x ≠ PFloat.nan) with
  | nil => rw [hf] at hqf; simp at hqf
  | cons x xs =>
      rw [hf] at hqf hm
      have hx : x ∈ l.filter (fun y => y ≠ PFloat.nan) := by
        rw [hf]
        exact List.mem_cons_self x xs
      have hxnan : x ≠ PFloat.nan := by
        simpa using (List.mem_filter.mp hx).2
      rcases List.mem_cons.mp hqf with hqx | hmem
      · exact foldl_pyMax_le xs x q m hxnan (Or.inl hqx.symm) hm
      · exact foldl_pyMax_le xs x q m hxnan (Or.inr hmem) hm

/-- `Series.max()` of a nonempty column of a constant finite value. -/
lemma seriesMaxP_const {l : List PFloat} {v : ℚ} (hl : l ≠ [])
    (hc : ∀ y ∈ l, y = .finite v) : seriesMaxP l = .finite v := by
  have hfilter : l.filter (fun x => x ≠ PFloat.nan) = l := by
    apply List.filter_eq_self.mpr
    intro x hx
    rw [hc x hx]
    simp
  rw [seriesMaxP, hfilter]
  cases l with
  | nil => exact absurd rfl hl
  | cons x xs =>
      have hx : x = .finite v := hc x (List.mem_cons_self x xs)
      have hfold : ∀ (ys : List PFloat), (∀ y ∈ ys, y = .finite v) →
          ys.foldl PFloat.pyMax (.finite v) = .finite v := by
        intro ys
        induction ys with
        | nil => intro _; rfl
        | cons z zs ihz =>
            intro hz
            rw [List.foldl_cons, hz z (List.mem_cons_self z zs)]
            have : PFloat.pyMax (.finite v) (.finite v) = .finite v := by
              rw [PFloat.pyMax_finite, max_self]
            rw [this]
            exact ihz (fun y hy => hz y (List.mem_cons_of_mem z hy))
      rw [hx]
      exact hfold xs (fun y hy => hc y (List.mem_cons_of_mem x hy))

/-- Summing a natural-valued field over the events picked out by
in-range indices equals summing the corresponding entries of the
mapped column. -/
lemma filterMap_get_map_sum (l : List Event) (f : Event → ℕ) :
    ∀ idxs : List ℕ, (∀ j ∈ idxs, j < l.length) →
      ((idxs.filterMap (fun i => l.get? i)).map f).sum =
        costSum (l.map f) idxs := by
  intro idxs
  induction idxs with
  | nil => intro _; simp [costSum]
  | cons j rest ih =>
      intro hj
      have hjl : j < l.length := hj j (List.mem_cons_self j rest)
      have hget : l.get? j = some (l.get ⟨j, hjl⟩) := List.get?_eq_get hjl
      have hrest : ∀ k ∈ rest, k < l.length :=
        fun k hk => hj k (List.mem_cons_of_mem j hk)
      rw [List.filterMap_cons, hget]
      have hcol : (l.map f).getD j 0 = f (l.get ⟨j, hjl⟩) := by
        rw [List.getD_eq_getElem _ _ (by simpa using hjl), List.getElem_map]
        rfl
      have hsum : costSum (l.map f) (j :: rest) =
          (l.map f).getD j 0 + costSum (l.map f) rest := by
        simp [costSum]
      rw [hsum, hcol, ← ih hrest]
      simp

/-!
## The claims
-/

/-- C1: for every non-empty budget-eligible set of scored events with
integer budget `W`, per-event integer costs and real combined-score
values (small sets, `n ≤ 15`), the subset selected by the optimizer's
DP table and backtrace (lines 201-215) achieves a total combined-score
value equal to the maximum total value over all subsets whose total
cost is at most `W`. -/
theorem knapsack_selection_optimal (costs : List ℕ) (values : List ℚ) (W : ℕ)
    (hlen : costs.length = values.length) (_hne : 0 < costs.length)
    (_hsmall : costs.length ≤ 15) :
    valSum values (backtrackQ costs values costs.length W) =
      bruteForceMax (costs.zip values) W := by
  rw [(backtrackQ_correct costs values costs.length W).1]
  exact dpQ_eq_bruteForceMax costs values hlen W

theorem knapsack_selection_optimal_witness :
    valSum [3, 4] (backtrackQ [2, 3] [3, 4] 2 4) =
      bruteForceMax (List.zip [2, 3] [3, 4]) 4 :=
  knapsack_selection_optimal [2, 3] [3, 4] 4 rfl (by decide) (by decide)

/-- C7: in the backtrace of lines 209-215, whenever including an item
and excluding it yield equal best total value at the current capacity
(`dp[i][w] = dp[i-1][w]`, with the table's actual float cells, which
are never NaN), the item is not selected and the backtrace continues
unchanged; an item is selected only when the cell value strictly
differs from the value excluding it. -/
theorem backtrace_tie_break (costs : List ℕ) (values : List PFloat) (i w : ℕ)
    (h : dpF costs values (i + 1) w = dpF costs values i w) :
    backtrackF costs values (i + 1) w = backtrackF costs values i w ∧
      ∀ j ∈ backtrackF costs values (i + 1) w, j ≠ i := by
  have hne : PFloat.pyNe (dpF costs values (i + 1) w)
      (dpF costs values i w) = false := by
    rw [h]
    exact PFloat.pyNe_self (dpF_ne_nan costs values i w)
  have hstep : backtrackF costs values (i + 1) w =
      backtrackF costs values i w := by
    rw [backtrackF, hne]
    simp
  refine ⟨hstep, ?_⟩
  intro j hj
  rw [hstep] at hj
  exact Nat.ne_of_lt (backtrackF_lt costs values i w j hj)

theorem backtrace_tie_break_witness :
    backtrackF [1] [.finite 0] 1 0 = backtrackF [1] [.finite 0] 0 0 ∧
      ∀ j ∈ backtrackF [1] [.finite 0] 1 0, j ≠ 0 :=
  backtrace_tie_break [1] [.finite 0] 0 0 (by decide)

/-- C10: every cell of the optimizer's DP table is nonnegative and
monotone nondecreasing in both the item index and the capacity;
consequently an event whose combined score is negative is never
selected by the backtrace. -/
theorem dp_table_invariants (costs : List ℕ) (values : List ℚ) (i w : ℕ) :
    0 ≤ dpQ costs values i w ∧
      dpQ costs values i w ≤ dpQ costs values (i + 1) w ∧
      dpQ costs values i w ≤ dpQ costs values i (w + 1) ∧
      ∀ j ∈ backtrackQ costs values i w, 0 ≤ values.getD j 0 :=
  ⟨dpQ_nonneg costs values i w, dpQ_le_succ costs values i w,
    dpQ_mono_w costs values i (Nat.le_succ w),
    backtrackQ_value_nonneg costs values i w⟩

theorem dp_table_invariants_witness :
    0 ≤ dpQ [1] [(-1 : ℚ)] 1 1 ∧
      ∀ j ∈ backtrackQ [1] [(-1 : ℚ)] 1 1, 0 ≤ ([(-1 : ℚ)].getD j 0) :=
  ⟨(dp_table_invariants [1] [(-1 : ℚ)] 1 1).1,
    (dp_table_invariants [1] [(-1 : ℚ)] 1 1).2.2.2⟩

/-- C2: for every optimizer run, the total cost of the selected subset
is at most the budget, measured on the integer adjusted costs fed to
the optimizer (line 197) against the integer budget `W` (line 196).
Stated both for the backtrace on arbitrary float value lists and for
the full tab-5 pipeline. -/
theorem optimizer_budget_feasible :
    (∀ (costs : List ℕ) (values : List PFloat) (W : ℕ),
      costSum costs (backtrackF costs values costs.length W) ≤ W) ∧
    ∀ (filtered : List Event) (w : Weights) (mult budget : ℚ)
      (sel : List Event), tab5 filtered w mult budget = .recommended sel →
      (sel.map (fun e => pyInt (adjustedCost mult e))).sum ≤ pyInt budget := by
  constructor
  · intro costs values W
    exact backtrackF_costSum_le costs values costs.length W
  · intro filtered w mult budget sel hsel
    rw [tab5] at hsel
    by_cases h1 : filtered.isEmpty
    · rw [if_pos h1] at hsel
      exact absurd hsel (by simp)
    · rw [if_neg h1] at hsel
      simp only [] at hsel
      set budgetDf := filtered.filter (fun e => adjustedCost mult e ≤ budget)
        with hbdf
      by_cases h2 : budgetDf.isEmpty
      · rw [if_pos h2] at hsel
        exact absurd hsel (by simp)
      · rw [if_neg h2] at hsel
        set costs := budgetDf.map (fun e => pyInt (adjustedCost mult e))
          with hcosts
        set values := budgetDf.map (combinedScore filtered budgetDf w mult)
          with hvalues
        set idxs := backtrackF costs values budgetDf.length (pyInt budget)
          with hidxs
        have hsel' : sel = idxs.filterMap (fun i => budgetDf.get? i) := by
          have := (Tab5Result.recommended.injEq _ _).mp hsel
          exact this.symm
        have hbound : ∀ j ∈ idxs, j < budgetDf.length := fun j hj =>
          backtrackF_lt costs values budgetDf.length (pyInt budget) j hj
        have hlen : costs.length = budgetDf.length := by
          rw [hcosts, List.length_map]
        rw [hsel', filterMap_get_map_sum budgetDf _ idxs hbound, ← hcosts]
        have := backtrackF_costSum_le costs values costs.length (pyInt budget)
        rw [hlen] at this
        exact this

theorem optimizer_budget_feasible_witness :
    (([] : List Event).map (fun e => pyInt (adjustedCost 1 e))).sum ≤
      pyInt 10 := by
  have hadj : adjustedCost 1 zeroAttendanceEvent = 5 := by
    norm_num [adjustedCost, zeroAttendanceEvent]
  have hfil : [zeroAttendanceEvent].filter
      (fun e => adjustedCost 1 e ≤ 10) = [zeroAttendanceEvent] := by
    simp only [List.filter, hadj]
    norm_num
  have hna : normAttendance [zeroAttendanceEvent] zeroAttendanceEvent =
      .nan := by
    simp [normAttendance, seriesMaxQ, zeroAttendanceEvent, PFloat.pDiv]
  have hdf : dynamicFitScore [zeroAttendanceEvent] sampleWeights 1
      zeroAttendanceEvent = .nan := by
    rw [dynamicFitScore, hna]
    simp
  have hroi : roi 1 zeroAttendanceEvent = .finite 0 := by
    norm_num [roi, adjustedCost, zeroAttendanceEvent, PFloat.pDiv,
      PFloat.round2, PFloat.roundHalfEven]
  have hnf : normFitScore [zeroAttendanceEvent] [zeroAttendanceEvent]
      sampleWeights 1 zeroAttendanceEvent = .nan := by
    rw [normFitScore, hdf]
    simp
  have hcs : combinedScore [zeroAttendanceEvent] [zeroAttendanceEvent]
      sampleWeights 1 zeroAttendanceEvent = .nan := by
    rw [combinedScore, hnf]
    simp
  have hsel : tab5 [zeroAttendanceEvent] sampleWeights 1 10 =
      .recommended [] := by
    rw [tab5, if_neg (by simp)]
    simp only [hfil, hcs, hadj]
    rw [if_neg (by simp)]
    norm_num [pyInt]
    rw [hadj, hcs]
    decide
  exact optimizer_budget_feasible.2 [zeroAttendanceEvent] sampleWeights 1 10 []
    hsel

/-- C9: the scoring engine and the optimizer are deterministic pure
functions: two runs on identical inputs (events, weights, multiplier,
budget) produce identical scored output sequences and identical
selections.  Both are total Lean functions of their inputs alone, so
equal inputs give equal outputs. -/
theorem engine_deterministic (ev1 ev2 : List Event) (w1 w2 : Weights)
    (m1 m2 b1 b2 : ℚ) (hev : ev1 = ev2) (hw : w1 = w2) (hm : m1 = m2)
    (hb : b1 = b2) :
    scoreTable ev1 w1 m1 = scoreTable ev2 w2 m2 ∧
      tab5 ev1 w1 m1 b1 = tab5 ev2 w2 m2 b2 := by
  subst hev hw hm hb
  exact ⟨rfl, rfl⟩

theorem engine_deterministic_witness :
    scoreTable [sampleEventA] sampleWeights 1 =
        scoreTable [sampleEventA] sampleWeights 1 ∧
      tab5 [sampleEventA] sampleWeights 1 10 =
        tab5 [sampleEventA] sampleWeights 1 10 :=
  engine_deterministic [sampleEventA] [sampleEventA] sampleWeights
    sampleWeights 1 1 10 10 rfl rfl rfl rfl

/-- C6: `demo_score` is exactly the fixed lookup of lines 86-87:
Families → 1.0, Young Adults → 0.9, Sports Fans → 0.8,
Cultural Communities → 0.7, General Public → 0.8, and any other
demographic value → the `fillna` default 0.6. -/
theorem demo_score_lookup :
    demoScore "Families" = 1 ∧ demoScore "Young Adults" = 9/10 ∧
      demoScore "Sports Fans" = 8/10 ∧
      demoScore "Cultural Communities" = 7/10 ∧
      demoScore "General Public" = 8/10 ∧
      ∀ d : String, d ≠ "Families" → d ≠ "Young Adults" →
        d ≠ "Sports Fans" → d ≠ "Cultural Communities" →
        d ≠ "General Public" → demoScore d = 6/10 := by
  refine ⟨rfl, rfl, rfl, rfl, rfl, ?_⟩
  intro d h1 h2 h3 h4 h5
  simp [demoScore, h1, h2, h3, h4, h5]

theorem demo_score_lookup_witness : demoScore "Seniors" = 6/10 :=
  demo_score_lookup.2.2.2.2.2 "Seniors" (by decide) (by decide) (by decide)
    (by decide) (by decide)

/-- C5: for every event in the filtered set and every weight
configuration, in the non-degenerate case (nonzero attendance and
adjusted-cost maxima; the degenerate case is the subject of C3), the
computed `DynamicFitScore` equals exactly
`w_att*norm_att + w_pub*(pub/10) + w_pride*(pride/10) +
w_media*(media/10) + w_demo*demo − w_cost*norm_cost`, with no clamping:
the formula's value, negative included, is returned as-is. -/
theorem dynamic_fit_score_formula (events : List Event) (w : Weights)
    (mult : ℚ) (e : Event) (_he : e ∈ events) (A C : ℚ)
    (hA : seriesMaxQ (events.map (·.attendance)) = .finite A) (hA0 : A ≠ 0)
    (hC : seriesMaxQ (events.map (adjustedCost mult)) = .finite C)
    (hC0 : C ≠ 0) :
    dynamicFitScore events w mult e =
      .finite (w.attendance * (e.attendance / A) +
        w.publicity * (e.publicityScore / 10) +
        w.pride * (e.prideFactor / 10) +
        w.media * (e.mediaCoverageScore / 10) +
        w.demo * demoScore e.demographic -
        w.cost * (adjustedCost mult e / C)) := by
  have h1 : PFloat.pDiv (.finite e.attendance) (.finite A) =
      .finite (e.attendance / A) := by
    simp [PFloat.pDiv, hA0]
  have h2 : PFloat.pDiv (.finite (adjustedCost mult e)) (.finite C) =
      .finite (adjustedCost mult e / C) := by
    simp [PFloat.pDiv, hC0]
  rw [dynamicFitScore, normAttendance, normCost, hA, hC, h1, h2,
    PFloat.pMul_finite, PFloat.pMul_finite, PFloat.pMul_finite,
    PFloat.pMul_finite, PFloat.pMul_finite, PFloat.pMul_finite,
    PFloat.pAdd_finite, PFloat.pAdd_finite, PFloat.pAdd_finite,
    PFloat.pAdd_finite, PFloat.pSub_finite]

theorem dynamic_fit_score_formula_witness :
    dynamicFitScore [sampleEventA] sampleWeights 1 sampleEventA =
      .finite (sampleWeights.attendance * (sampleEventA.attendance / 10) +
        sampleWeights.publicity * (sampleEventA.publicityScore / 10) +
        sampleWeights.pride * (sampleEventA.prideFactor / 10) +
        sampleWeights.media * (sampleEventA.mediaCoverageScore / 10) +
        sampleWeights.demo * demoScore sampleEventA.demographic -
        sampleWeights.cost * (adjustedCost 1 sampleEventA / (5 * 1))) :=
  dynamic_fit_score_formula [sampleEventA] sampleWeights 1 sampleEventA
    (by simp) 10 (5 * 1) rfl (by norm_num) rfl (by norm_num)

/-- C3 counterexample: a set whose attendance maximum is zero.  The
engine (line 84) computes `0 / 0`, which is NaN — not the zero the
claim asserts. -/
theorem normalization_zero_max_cex :
    seriesMaxQ ([zeroAttendanceEvent].map (·.attendance)) = .finite 0 ∧
      normAttendance [zeroAttendanceEvent] zeroAttendanceEvent = .nan ∧
      normAttendance [zeroAttendanceEvent] zeroAttendanceEvent ≠
        .finite 0 := by
  refine ⟨rfl, ?_, ?_⟩
  · simp [normAttendance, seriesMaxQ, zeroAttendanceEvent, PFloat.pDiv]
  · simp [normAttendance, seriesMaxQ, zeroAttendanceEvent, PFloat.pDiv]

/-- C3 amended: when the maximum of a normalized field is zero, no
division fault is raised, but the engine assigns IEEE special values,
never the claimed zero: for the nonnegative attendance and
adjusted-cost fields (lines 84-85) every event gets NaN (all values
are then zero, and `0 / 0 = NaN`); for the optimizer's fit-score and
ROI normalizations (lines 190-191), whose values may be negative, an
event whose own finite value is zero gets NaN and one whose finite
value is negative gets `-inf`.  When all events share the same nonzero
(finite) value for any of the four fields, the normalized value is 1
for every event, not zero. -/
theorem normalization_zero_max_amended :
    (∀ (events : List Event) (e : Event), e ∈ events →
      (∀ x ∈ events, 0 ≤ x.attendance) →
      seriesMaxQ (events.map (·.attendance)) = .finite 0 →
      normAttendance events e = .nan) ∧
    (∀ (events : List Event) (mult : ℚ) (e : Event), e ∈ events →
      (∀ x ∈ events, 0 ≤ adjustedCost mult x) →
      seriesMaxQ (events.map (adjustedCost mult)) = .finite 0 →
      normCost events mult e = .nan) ∧
    (∀ (events : List Event) (e : Event) (v : ℚ), e ∈ events →
      (∀ x ∈ events, x.attendance = v) → v ≠ 0 →
      normAttendance events e = .finite 1) ∧
    (∀ (events : List Event) (mult : ℚ) (e : Event) (v : ℚ), e ∈ events →
      (∀ x ∈ events, adjustedCost mult x = v) → v ≠ 0 →
      normCost events mult e = .finite 1) ∧
    (∀ (filtered budgetDf : List Event) (w : Weights) (mult : ℚ)
      (e : Event) (q : ℚ), e ∈ budgetDf →
      dynamicFitScore filtered w mult e = .finite q →
      seriesMaxP (budgetDf.map (dynamicFitScore filtered w mult)) =
        .finite 0 →
      normFitScore filtered budgetDf w mult e =
        if q = 0 then .nan else .negInf) ∧
    (∀ (budgetDf : List Event) (mult : ℚ) (e : Event) (q : ℚ),
      e ∈ budgetDf → roi mult e = .finite q →
      seriesMaxP (budgetDf.map (roi mult)) = .finite 0 →
      normROI budgetDf mult e = if q = 0 then .nan else .negInf) ∧
    (∀ (filtered budgetDf : List Event) (w : Weights) (mult : ℚ)
      (e : Event) (v : ℚ), e ∈ budgetDf →
      (∀ x ∈ budgetDf, dynamicFitScore filtered w mult x = .finite v) →
      v ≠ 0 → normFitScore filtered budgetDf w mult e = .finite 1) ∧
    (∀ (budgetDf : List Event) (mult : ℚ) (e : Event) (v : ℚ),
      e ∈ budgetDf → (∀ x ∈ budgetDf, roi mult x = .finite v) → v ≠ 0 →
      normROI budgetDf mult e = .finite 1) := by
  refine ⟨?_, ?_, ?_, ?_, ?_, ?_, ?_, ?_⟩
  · intro events e he hnn hmax
    have hmem : e.attendance ∈ events.map (·.attendance) :=
      List.mem_map_of_mem _ he
    have hle : e.attendance ≤ 0 := mem_le_seriesMaxQ hmem hmax
    have hatt : e.attendance = 0 := le_antisymm hle (hnn e he)
    rw [normAttendance, hmax, hatt]
    simp [PFloat.pDiv]
  · intro events mult e he hnn hmax
    have hmem : adjustedCost mult e ∈ events.map (adjustedCost mult) :=
      List.mem_map_of_mem _ he
    have hle : adjustedCost mult e ≤ 0 := mem_le_seriesMaxQ hmem hmax
    have hadj : adjustedCost mult e = 0 := le_antisymm hle (hnn e he)
    rw [normCost, hmax, hadj]
    simp [PFloat.pDiv]
  · intro events e v he hconst hv0
    have hmax : seriesMaxQ (events.map (·.attendance)) = .finite v := by
      apply seriesMaxQ_const
      · exact List.ne_nil_of_mem (List.mem_map_of_mem _ he)
      · intro y hy
        obtain ⟨x, hx, rfl⟩ := List.mem_map.mp hy
        exact hconst x hx
    rw [normAttendance, hmax, hconst e he]
    simp [PFloat.pDiv, hv0, div_self hv0]
  · intro events mult e v he hconst hv0
    have hmax : seriesMaxQ (events.map (adjustedCost mult)) = .finite v := by
      apply seriesMaxQ_const
      · exact List.ne_nil_of_mem (List.mem_map_of_mem _ he)
      · intro y hy
        obtain ⟨x, hx, rfl⟩ := List.mem_map.mp hy
        exact hconst x hx
    rw [normCost, hmax, hconst e he]
    simp [PFloat.pDiv, hv0, div_self hv0]
  · intro filtered budgetDf w mult e q he hdf hmax
    have hqle : q ≤ 0 := mem_le_seriesMaxP
      (by rw [← hdf]; exact List.mem_map_of_mem _ he) hmax
    have hnlt : ¬(0 < q) := not_lt.mpr hqle
    rw [normFitScore, hmax, hdf]
    simp [PFloat.pDiv, hnlt]
  · intro budgetDf mult e q he hroi hmax
    have hqle : q ≤ 0 := mem_le_seriesMaxP
      (by rw [← hroi]; exact List.mem_map_of_mem _ he) hmax
    have hnlt : ¬(0 < q) := not_lt.mpr hqle
    rw [normROI, hmax, hroi]
    simp [PFloat.pDiv, hnlt]
  · intro filtered budgetDf w mult e v he hconst hv0
    have hmax : seriesMaxP (budgetDf.map (dynamicFitScore filtered w mult)) =
        .finite v := by
      apply seriesMaxP_const
      · exact List.ne_nil_of_mem (List.mem_map_of_mem _ he)
      · intro y hy
        obtain ⟨x, hx, rfl⟩ := List.mem_map.mp hy
        exact hconst x hx
    rw [normFitScore, hmax, hconst e he]
    simp [PFloat.pDiv, hv0, div_self hv0]
  · intro budgetDf mult e v he hconst hv0
    have hmax : seriesMaxP (budgetDf.map (roi mult)) = .finite v := by
      apply seriesMaxP_const
      · exact List.ne_nil_of_mem (List.mem_map_of_mem _ he)
      · intro y hy
        obtain ⟨x, hx, rfl⟩ := List.mem_map.mp hy
        exact hconst x hx
    rw [normROI, hmax, hconst e he]
    simp [PFloat.pDiv, hv0, div_self hv0]

theorem normalization_zero_max_amended_witness :
    normAttendance [zeroAttendanceEvent] zeroAttendanceEvent = .nan ∧
      normAttendance [sampleEventA] sampleEventA = .finite 1 ∧
      normROI [zeroAttendanceEvent] 1 zeroAttendanceEvent =
        (if (0 : ℚ) = 0 then PFloat.nan else PFloat.negInf) :=
  ⟨normalization_zero_max_amended.1 [zeroAttendanceEvent]
      zeroAttendanceEvent (by simp)
      (by intro x hx; simp at hx; subst hx; norm_num [zeroAttendanceEvent])
      rfl,
    normalization_zero_max_amended.2.2.1 [sampleEventA] sampleEventA 10
      (by simp)
      (by intro x hx; simp at hx; subst hx; norm_num [sampleEventA])
      (by norm_num),
    normalization_zero_max_amended.2.2.2.2.2.1 [zeroAttendanceEvent] 1
      zeroAttendanceEvent 0 (by simp)
      (by norm_num [roi, adjustedCost, zeroAttendanceEvent, PFloat.pDiv,
        PFloat.round2, PFloat.roundHalfEven])
      (by
        have hroi : roi 1 zeroAttendanceEvent = .finite 0 := by
          norm_num [roi, adjustedCost, zeroAttendanceEvent, PFloat.pDiv,
            PFloat.round2, PFloat.roundHalfEven]
        simp [seriesMaxP, hroi])⟩

/-- C4 counterexample: an event with adjusted cost zero and positive
attendance·publicity·media.  Line 96 computes its ROI as `+inf`; the
event is not excluded (it passes the `AdjustedCost <= budget` filter of
line 186), and the infinity reaches the optimizer's combined-score
computation at lines 191-192, where it turns into NaN (`inf / inf`). -/
theorem roi_zero_cost_cex :
    adjustedCost 1 zeroCostEvent = 0 ∧
      roi 1 zeroCostEvent = .inf ∧
      zeroCostEvent ∈
        [zeroCostEvent].filter (fun e => adjustedCost 1 e ≤ 10) ∧
      combinedScore [zeroCostEvent] [zeroCostEvent] sampleWeights 1
        zeroCostEvent = .nan := by
  have hadj : adjustedCost 1 zeroCostEvent = 0 := by
    norm_num [adjustedCost, zeroCostEvent]
  have hroi : roi 1 zeroCostEvent = .inf := by
    rw [roi, hadj]
    norm_num [zeroCostEvent, PFloat.pDiv]
  have hmax : seriesMaxP ([zeroCostEvent].map (roi 1)) = .inf := by
    apply seriesMaxP_inf
    simp [hroi]
  have hnr : normROI [zeroCostEvent] 1 zeroCostEvent = .nan := by
    rw [normROI, hroi, hmax]
    rfl
  refine ⟨hadj, hroi, by simp [hadj], ?_⟩
  rw [combinedScore, hnr]
  simp

/-- C4 amended: an event with adjusted cost 0 and positive
attendance·publicity·media product receives `ROI = +inf` (NaN when the
product is zero); it is NOT excluded from ROI-based comparisons: for
any nonnegative budget it is budget-eligible, the eligible set's
`ROI.max()` becomes `inf`, its `NormROI` becomes NaN (`inf / inf`), and
its `CombinedScore` — the optimizer's value — becomes NaN. -/
theorem roi_zero_cost_amended (filtered : List Event) (w : Weights)
    (mult budget : ℚ) (e : Event) (h0 : adjustedCost mult e = 0)
    (hpos : 0 < e.attendance * e.publicityScore * e.mediaCoverageScore)
    (hb : 0 ≤ budget) (he : e ∈ filtered) :
    roi mult e = .inf ∧
      e ∈ filtered.filter (fun x => adjustedCost mult x ≤ budget) ∧
      normROI (filtered.filter (fun x => adjustedCost mult x ≤ budget))
        mult e = .nan ∧
      combinedScore filtered
        (filtered.filter (fun x => adjustedCost mult x ≤ budget)) w mult
        e = .nan := by
  have hroi : roi mult e = .inf := by
    rw [roi, h0]
    simp [PFloat.pDiv, hpos.ne', hpos]
  have hmem : e ∈ filtered.filter (fun x => adjustedCost mult x ≤ budget) := by
    simp [List.mem_filter, he, h0, hb]
  have hmax : seriesMaxP
      ((filtered.filter (fun x => adjustedCost mult x ≤ budget)).map
        (roi mult)) = .inf := by
    apply seriesMaxP_inf
    rw [← hroi]
    exact List.mem_map_of_mem _ hmem
  have hnr : normROI
      (filtered.filter (fun x => adjustedCost mult x ≤ budget)) mult e =
      .nan := by
    rw [normROI, hroi, hmax]
    rfl
  refine ⟨hroi, hmem, hnr, ?_⟩
  rw [combinedScore, hnr]
  simp

theorem roi_zero_cost_amended_witness :
    roi 1 zeroCostEvent = .inf ∧
      zeroCostEvent ∈
        [zeroCostEvent].filter (fun x => adjustedCost 1 x ≤ 1000) ∧
      normROI ([zeroCostEvent].filter (fun x => adjustedCost 1 x ≤ 1000)) 1
        zeroCostEvent = .nan ∧
      combinedScore [zeroCostEvent]
        ([zeroCostEvent].filter (fun x => adjustedCost 1 x ≤ 1000))
        sampleWeights 1 zeroCostEvent = .nan :=
  roi_zero_cost_amended [zeroCostEvent] sampleWeights 1 1000 zeroCostEvent
    (by norm_num [adjustedCost, zeroCostEvent])
    (by norm_num [zeroCostEvent]) (by norm_num) (by simp)

/-- C8 counterexample: with an empty filtered set the budget-eligible
subset is empty, but tab 5 reports the line-184 status ("No events
available with current filters"), not the "no events fit" status the
claim asserts for every empty-eligible input. -/
theorem tab5_empty_filtered_cex :
    ([] : List Event).filter (fun e => adjustedCost 1 e ≤ 100) = [] ∧
      tab5 [] sampleWeights 1 100 = .noEventsAvailable ∧
      tab5 [] sampleWeights 1 100 ≠ .noEventsFitBudget := by
  refine ⟨rfl, rfl, ?_⟩
  intro h
  rw [show tab5 [] sampleWeights 1 100 = .noEventsAvailable from rfl] at h
  exact absurd h (by simp)

/-- C8 amended: when the filtered set is nonempty and the
budget-eligible subset is empty — including budget 0 with no
zero-adjusted-cost event — tab 5 returns the explicit "no events fit"
status (an empty recommendation, lines 187-188) and never raises; when
the filtered set itself is empty it returns the distinct "no events
available" status of line 184, also an empty recommendation and never
an error. -/
theorem tab5_empty_eligible_amended (filtered : List Event) (w : Weights)
    (mult budget : ℚ) :
    (filtered ≠ [] →
      filtered.filter (fun e => adjustedCost mult e ≤ budget) = [] →
      tab5 filtered w mult budget = .noEventsFitBudget) ∧
    (filtered = [] → tab5 filtered w mult budget = .noEventsAvailable) := by
  constructor
  · intro hne hfil
    rw [tab5, if_neg (by simp [hne])]
    simp only [hfil]
    rfl
  · intro h
    subst h
    rfl

theorem tab5_empty_eligible_amended_witness :
    tab5 [sampleEventA] sampleWeights 1 0 = .noEventsFitBudget :=
  (tab5_empty_eligible_amended [sampleEventA] sampleWeights 1 0).1
    (by simp)
    (by simp only [List.filter]; norm_num [adjustedCost, sampleEventA])
